import Mathlib

/-!
Verification of the analytics-widget core: the value codec (`parseValue`),
the config gate (`isConfig`), the synthetic-data generator
(`generateFakeAnalytics`) and the dashboard controller's mount/refresh
state machine, shallowly embedded from the TypeScript sources
(`src/customElement/value.ts`, `src/customElement/config.ts`,
`src/components/AnalyticsDashboard.tsx`).

JavaScript machine doubles are modelled as exact rationals (the numeric
steps used here — floor, round, sums of small integers — stay far from any
double-rounding boundary), calendar time as integer day indices, and the
host's JSON channel by an explicit JSON value type with an executable
serializer and parser covering the whitespace-free JSON fragment that
`JSON.stringify` emits (objects, arrays, double-quoted strings without
escape sequences, plain decimal numbers, `true`, `false`, `null`).
-/

/-! ## JSON values

The universal value type exchanged with the host.  A number is kept as a
decimal `mantissa / 10 ^ fracDigits`, mirroring the plain decimal notation
`JSON.stringify` prints for the doubles this widget produces. -/

inductive Json where
  | null : Json
  | bool (b : Bool) : Json
  | num (mantissa : Int) (fracDigits : Nat) : Json
  | str (s : String) : Json
  | arr (elems : List Json) : Json
  | obj (fields : List (String × Json)) : Json

/-! ## Serialization (model of `JSON.stringify` on this fragment) -/

/-- Decimal digit character for `n < 10` (clamped to `'9'` above). -/
def digitChar (n : Nat) : Char :=
  match n with
  | 0 => '0' | 1 => '1' | 2 => '2' | 3 => '3' | 4 => '4'
  | 5 => '5' | 6 => '6' | 7 => '7' | 8 => '8' | _ => '9'

/-- Digits of a positive natural, most significant first (`[]` for 0). -/
def natCharsAux (n : Nat) : List Char :=
  if n = 0 then []
  else natCharsAux (n / 10) ++ [digitChar (n % 10)]
decreasing_by exact Nat.div_lt_self (Nat.pos_of_ne_zero (by assumption)) (by omega)

/-- Decimal notation of a natural number. -/
def natChars (n : Nat) : List Char :=
  if n = 0 then ['0'] else natCharsAux n

/-- Exactly `f` decimal digits of `k` (`k < 10 ^ f`), zero padded. -/
def natCharsPad (f : Nat) (k : Nat) : List Char :=
  match f with
  | 0 => []
  | f + 1 => natCharsPad f (k / 10) ++ [digitChar (k % 10)]

/-- Decimal notation of the number `m / 10 ^ f`. -/
def numChars (m : Int) (f : Nat) : List Char :=
  (if m < 0 then ['-'] else []) ++
    (if f = 0 then natChars m.natAbs
     else natChars (m.natAbs / 10 ^ f) ++ ['.'] ++ natCharsPad f (m.natAbs % 10 ^ f))

mutual

/-- Characters `JSON.stringify` emits for a value of this fragment. -/
def jsonChars : Json → List Char
  | .num m f => numChars m f
  | .str s => '\x22' :: s.data ++ ['\x22']
  | .arr [] => ['[', ']']
  | .arr (e :: es) => '[' :: elemsChars e es
  | .obj [] => ['\x7b', '\x7d']
  | .obj (f :: fs) => '\x7b' :: fieldsChars f fs
  | .null => "null".data
  | .bool true => "true".data
  | .bool false => "false".data
termination_by j => sizeOf j
decreasing_by all_goals simp_wf

/-- Comma separated elements, closed with `]`. -/
def elemsChars : Json → List Json → List Char
  | e, [] => jsonChars e ++ [']']
  | e, e2 :: es => jsonChars e ++ ',' :: elemsChars e2 es
termination_by e es => 1 + sizeOf e + sizeOf es
decreasing_by all_goals (simp_wf <;> omega)

/-- Comma separated `"key":value` fields, closed with the closing brace. -/
def fieldsChars : (String × Json) → List (String × Json) → List Char
  | (k, v), [] => '\x22' :: k.data ++ '\x22' :: ':' :: jsonChars v ++ ['\x7d']
  | (k, v), f2 :: fs =>
      '\x22' :: k.data ++ '\x22' :: ':' :: jsonChars v ++ ',' :: fieldsChars f2 fs
termination_by f fs => 1 + sizeOf f + sizeOf fs
decreasing_by all_goals (simp_wf <;> omega)

end

/-- Model of `JSON.stringify`. -/
def jsonStringify (j : Json) : String :=
  ⟨jsonChars j⟩

/-! ## Parsing (model of `JSON.parse` on this fragment) -/

/-- A character allowed verbatim inside a serialized string: anything but
the double quote and the backslash (the fragment has no escape sequences). -/
def strChar (c : Char) : Bool :=
  c ≠ '\x22' && c ≠ '\\'

/-- A decimal digit `'0'..'9'`. -/
def isDigitChar (c : Char) : Bool :=
  48 ≤ c.toNat && c.toNat ≤ 57

/-- Numeric value of a digit run, most significant first. -/
def digitsVal (ds : List Char) : Nat :=
  ds.foldl (fun a c => a * 10 + (c.toNat - 48)) 0

/-- Parse an unsigned decimal number (digits, optional `.digits`) returning
`(mantissa, fracDigits)` and the unconsumed rest. -/
def parseNumNat (cs : List Char) : Option ((Nat × Nat) × List Char) :=
  let ds := cs.takeWhile isDigitChar
  let rest := cs.dropWhile isDigitChar
  if ds.isEmpty then none
  else if rest.head? = some '.' then
    let rest2 := rest.tail
    let ds2 := rest2.takeWhile isDigitChar
    let rest3 := rest2.dropWhile isDigitChar
    if ds2.isEmpty then none
    else some ((digitsVal ds * 10 ^ ds2.length + digitsVal ds2, ds2.length), rest3)
  else some ((digitsVal ds, 0), rest)

/-- Parse a signed decimal number into `(mantissa, fracDigits)`. -/
def parseNum (cs : List Char) : Option ((Int × Nat) × List Char) :=
  if cs.head? = some '-' then
    (parseNumNat cs.tail).map (fun r => ((-(r.1.1 : Int), r.1.2), r.2))
  else
    (parseNumNat cs).map (fun r => (((r.1.1 : Int), r.1.2), r.2))

mutual

/-- Fueled recursive-descent parser for the JSON fragment.  The fuel only
bounds nesting of the grammar's recursion; `jsonParse` supplies enough. -/
def parseJson : Nat → List Char → Option (Json × List Char)
  | 0, _ => none
  | _ + 1, [] => none
  | fuel + 1, c :: cs =>
      if c = 'n' then
        match cs with
        | 'u' :: 'l' :: 'l' :: rest => some (.null, rest)
        | _ => none
      else if c = 't' then
        match cs with
        | 'r' :: 'u' :: 'e' :: rest => some (.bool true, rest)
        | _ => none
      else if c = 'f' then
        match cs with
        | 'a' :: 'l' :: 's' :: 'e' :: rest => some (.bool false, rest)
        | _ => none
      else if c = '\x22' then
        let body := cs.takeWhile strChar
        match cs.dropWhile strChar with
        | '\x22' :: rest => some (.str ⟨body⟩, rest)
        | _ => none
      else if c = '[' then
        if cs.head? = some ']' then some (.arr [], cs.tail)
        else
          match parseElems fuel cs with
          | some (es, rest) => some (.arr es, rest)
          | none => none
      else if c = '\x7b' then
        if cs.head? = some '\x7d' then some (.obj [], cs.tail)
        else
          match parseFields fuel cs with
          | some (fs, rest) => some (.obj fs, rest)
          | none => none
      else
        (parseNum (c :: cs)).map (fun r => (.num r.1.1 r.1.2, r.2))

/-- Parse one or more comma-separated array elements and the closing `]`. -/
def parseElems : Nat → List Char → Option (List Json × List Char)
  | 0, _ => none
  | fuel + 1, cs =>
      match parseJson fuel cs with
      | none => none
      | some (j, rest) =>
          match rest with
          | ']' :: rest2 => some ([j], rest2)
          | ',' :: rest2 =>
              match parseElems fuel rest2 with
              | some (es, rest3) => some (j :: es, rest3)
              | none => none
          | _ => none

/-- Parse one or more comma-separated object fields and the closing brace. -/
def parseFields : Nat → List Char → Option (List (String × Json) × List Char)
  | 0, _ => none
  | fuel + 1, cs =>
      match cs with
      | '\x22' :: cs2 =>
          let key := cs2.takeWhile strChar
          match cs2.dropWhile strChar with
          | '\x22' :: ':' :: cs3 =>
              match parseJson fuel cs3 with
              | none => none
              | some (v, rest) =>
                  match rest with
                  | '\x7d' :: rest2 => some ([(⟨key⟩, v)], rest2)
                  | ',' :: rest2 =>
                      match parseFields fuel rest2 with
                      | some (fs, rest3) => some ((⟨key⟩, v) :: fs, rest3)
                      | none => none
                  | _ => none
          | _ => none
      | _ => none

end

/-- Model of `JSON.parse`: run the fragment parser with ample fuel and
require the whole input to be consumed; `none` models a thrown
`SyntaxError`. -/
def jsonParse (s : String) : Option Json :=
  match parseJson (2 * s.data.length + 1) s.data with
  | some (j, []) => some j
  | _ => none

/-! ## Well-formedness and fuel accounting for the round-trip -/

/-- A string free of the double quote and the backslash, hence serialized
verbatim (ISO dates and timestamps qualify). -/
def strOkB (s : String) : Bool :=
  s.data.all strChar

mutual

/-- Values of the serializable fragment: every string (and object key)
avoids the quote and backslash characters. -/
def jwf : Json → Bool
  | .null => true
  | .bool _ => true
  | .num _ _ => true
  | .str s => strOkB s
  | .arr es => lwf es
  | .obj fs => fwf fs
termination_by j => sizeOf j
decreasing_by all_goals simp_wf

/-- `jwf` on every array element. -/
def lwf : List Json → Bool
  | [] => true
  | e :: es => jwf e && lwf es
termination_by es => sizeOf es
decreasing_by all_goals (simp_wf <;> omega)

/-- `jwf` on every field value, `strOkB` on every key. -/
def fwf : List (String × Json) → Bool
  | [] => true
  | (k, v) :: fs => strOkB k && jwf v && fwf fs
termination_by fs => sizeOf fs
decreasing_by all_goals (simp_wf <;> omega)

end

mutual

/-- Fuel sufficient for `parseJson` to reparse `jsonChars j`. -/
def jfuel : Json → Nat
  | .null => 1
  | .bool _ => 1
  | .num _ _ => 1
  | .str _ => 1
  | .arr [] => 1
  | .arr (e :: es) => 1 + efuel e es
  | .obj [] => 1
  | .obj (f :: fs) => 1 + ffuel f fs
termination_by j => sizeOf j
decreasing_by all_goals simp_wf

/-- Fuel sufficient for `parseElems` on `elemsChars e es`. -/
def efuel : Json → List Json → Nat
  | e, [] => 1 + jfuel e
  | e, e2 :: es => 1 + jfuel e + efuel e2 es
termination_by e es => 1 + sizeOf e + sizeOf es
decreasing_by all_goals (simp_wf <;> omega)

/-- Fuel sufficient for `parseFields` on `fieldsChars f fs`. -/
def ffuel : (String × Json) → List (String × Json) → Nat
  | (k, v), [] => 1 + jfuel v
  | (k, v), f2 :: fs => 1 + jfuel v + ffuel f2 fs
termination_by f fs => 1 + sizeOf f + sizeOf fs
decreasing_by all_goals (simp_wf <;> omega)

end

/-- The characters allowed to follow a serialized number: none, or one
that can neither extend the digit run nor open a fraction. -/
def NumSafe (rest : List Char) : Prop :=
  ∀ c, rest.head? = some c → isDigitChar c = false ∧ c ≠ '.'

/-! ## `src/customElement/value.ts` -/

/-- JavaScript exceptions relevant to `parseValue`'s try block. -/
inductive JsErr where
  | syntaxError : JsErr
  | typeError : JsErr
deriving DecidableEq

/-- Result type of `parseValue`: `Value | null | "invalidValue"`. -/
inductive ParseResult where
  | nullResult : ParseResult
  | invalidValue : ParseResult
  | value (j : Json) : ParseResult

/-- The JavaScript test `"analyticsData" in obj`: property lookup on an
object or array, a thrown `TypeError` on any primitive (modelled as
`Except.error`).  This embeds `isValidValue` from `value.ts`. -/
def isValidValue : Json → Except JsErr Bool
  | .obj fields => .ok (fields.any (fun f => f.1 = "analyticsData"))
  | .arr _ => .ok false
  | _ => .error .typeError

/-- Body of `parseValue`'s try block: `JSON.parse` (throwing `SyntaxError`
on malformed input) followed by the `isValidValue` membership test
(throwing `TypeError` on primitives). -/
def parseValueTry (s : String) : Except JsErr ParseResult :=
  match jsonParse s with
  | none => .error .syntaxError
  | some j =>
      match isValidValue j with
      | .error e => .error e
      | .ok true => .ok (.value j)
      | .ok false => .ok .invalidValue

/-- `parseValue` from `value.ts`: `null` input maps to `null`; otherwise the
try block runs and every thrown exception is caught and mapped to
`"invalidValue"`. -/
def parseValue (input : Option String) : ParseResult :=
  match input with
  | none => .nullResult
  | some s =>
      match parseValueTry s with
      | .ok r => r
      | .error _ => .invalidValue

/-- Whether a parsed JSON value has a property named `analyticsData`
(false for primitives and arrays, which lack it). -/
def jsonHasKey : Json → Bool
  | .obj fields => fields.any (fun f => f.1 = "analyticsData")
  | _ => false

/-! ## `src/customElement/config.ts` -/

/-- `isConfig` from `config.ts`: `value !== null`.  The argument models
`Readonly<Record<string, unknown>> | null`. -/
def isConfig (value : Option (List (String × Json))) : Bool :=
  value.isSome

/-! ## `src/components/AnalyticsDashboard.tsx`: the data generator -/

/-- One `pageViewsHistory` entry; `date` is the UTC calendar-day index the
code derives via `setDate`/`toISOString`. -/
structure DayViews where
  date : Int
  views : Int
deriving DecidableEq

/-- `AnalyticsData` from `value.ts`, with doubles as exact rationals and
the `lastUpdated` instant at day granularity. -/
structure AnalyticsData where
  pageViews : Int
  uniqueVisitors : Int
  bounceRate : ℚ
  avgTimeOnPage : ℚ
  lastUpdated : Int
  pageViewsHistory : List DayViews
deriving DecidableEq

/-- The stream of `Math.random()` draws `generateFakeAnalytics` consumes,
in call order: one per history day, then one each for `uniqueVisitors`,
`bounceRate` and `avgTimeOnPage`. -/
structure RandomDraws where
  views : Nat → ℚ
  uv : ℚ
  bounce : ℚ
  time : ℚ

/-- Every draw lies in `[0, 1)`, as `Math.random()` guarantees. -/
def RandomDraws.Valid (r : RandomDraws) : Prop :=
  (∀ i, 0 ≤ r.views i ∧ r.views i < 1) ∧
    (0 ≤ r.uv ∧ r.uv < 1) ∧ (0 ≤ r.bounce ∧ r.bounce < 1) ∧
    (0 ≤ r.time ∧ r.time < 1)

/-- `Math.round`: round half away from zero is half-up on the nonnegative
arguments used here; modelled as `⌊q + 1/2⌋`. -/
def jsRound (q : ℚ) : Int :=
  ⌊q + 1 / 2⌋

/-- `generateFakeAnalytics` from `AnalyticsDashboard.tsx`, parametrised by
the generation day and the random draws. -/
def generateFakeAnalytics (nowDay : Int) (rnd : RandomDraws) : AnalyticsData :=
  let historyDays : Nat := 7
  let pageViewsHistory : List DayViews :=
    (List.range historyDays).map (fun (i : Nat) =>
      { date := nowDay - ((historyDays : Int) - 1 - (i : Int))
        views := ⌊rnd.views i * 500⌋ + 100 })
  let totalViews : Int := (pageViewsHistory.map (fun d => d.views)).foldl (· + ·) 0
  { pageViews := totalViews
    uniqueVisitors := ⌊(totalViews : ℚ) * (0.6 + rnd.uv * 0.2)⌋
    bounceRate := (jsRound ((20 + rnd.bounce * 30) * 10) : ℚ) / 10
    avgTimeOnPage := (jsRound ((45 + rnd.time * 180) * 10) : ℚ) / 10
    lastUpdated := nowDay
    pageViewsHistory := pageViewsHistory }

/-! ## The dashboard controller state machine

The component's reactive state (`analyticsData`, `isLoading`), the host
value channel reached through the `useValue` hook, and instrumentation
recording every persisted write, every generator call and the pending
`setTimeout` callbacks.  The host-context wiring around the component
(decoding the stored string with `parseValue` before mount, encoding each
`setValue` argument) is not under `src/`; its value-channel behaviour is
modelled from the spec's §4.3/§6. -/

/-- The typed `Value | null` (or `"invalidValue"`) the component receives
from the host context at mount, after `parseValue` ran on the stored
string. -/
inductive DecodedValue where
  | nullValue : DecodedValue
  | invalid : DecodedValue
  | value (analyticsData : Option AnalyticsData) : DecodedValue
deriving DecidableEq

/-- The wrapper object `{ analyticsData: ... }` passed to `setValue`. -/
structure WValue where
  analyticsData : Option AnalyticsData
deriving DecidableEq

/-- `value?.analyticsData || null`: the snapshot carried by the decoded
value, if any (`"invalidValue"?.analyticsData` is `undefined`, hence
falsy, hence `null` here). -/
def dataOf : DecodedValue → Option AnalyticsData
  | .value (some d) => some d
  | _ => none

/-- Controller state: the two `useState` cells, the host value channel,
and instrumentation (write log, generator-call count, pending timers). -/
structure DashState where
  analyticsData : Option AnalyticsData
  isLoading : Bool
  hostValue : DecodedValue
  writes : List WValue
  genCount : Nat
  pendingTimers : Nat
deriving DecidableEq

/-- State after the component's `useState` initializers run, before the
mount effect: `analyticsData` starts from `value?.analyticsData || null`,
`isLoading` from `false`. -/
def initState (decoded : DecodedValue) : DashState :=
  { analyticsData := dataOf decoded
    isLoading := false
    hostValue := decoded
    writes := [], genCount := 0, pendingTimers := 0 }

/-- `setValue(v)`: one persisted write; the `useValue` channel now holds
the written wrapper. -/
def setValueStep (v : WValue) (s : DashState) : DashState :=
  { s with hostValue := .value v.analyticsData, writes := s.writes ++ [v] }

/-- The mount effect (`useEffect` with `[]`): adopt the decoded snapshot
when present, otherwise synthesize one, display it and persist it. -/
def mount (nowDay : Int) (rnd : RandomDraws) (s : DashState) : DashState :=
  match dataOf s.hostValue with
  | some d => { s with analyticsData := some d }
  | none =>
      let fakeData := generateFakeAnalytics nowDay rnd
      setValueStep { analyticsData := some fakeData }
        { s with analyticsData := some fakeData, genCount := s.genCount + 1 }

/-- A click on the refresh button.  The button carries
`disabled={isLoading}`, so while a refresh is pending the click never
invokes `refreshAnalytics`; otherwise `refreshAnalytics` sets `isLoading`
and schedules the 800ms `setTimeout` callback. -/
def refreshClick (s : DashState) : DashState :=
  if s.isLoading then s
  else { s with isLoading := true, pendingTimers := s.pendingTimers + 1 }

/-- The `setTimeout` callback firing after the 800ms delay: synthesize new
data, display it, persist it, clear `isLoading`. -/
def timerFire (nowDay : Int) (rnd : RandomDraws) (s : DashState) : DashState :=
  match s.pendingTimers with
  | 0 => s
  | n + 1 =>
      let newData := generateFakeAnalytics nowDay rnd
      setValueStep { analyticsData := some newData }
        { s with analyticsData := some newData, isLoading := false
                 genCount := s.genCount + 1, pendingTimers := n }

/-- The controller's events: the mount effect, a refresh-button click, and
a scheduled refresh callback firing. -/
inductive Event where
  | mountEv (nowDay : Int) (rnd : RandomDraws)
  | clickEv
  | timerEv (nowDay : Int) (rnd : RandomDraws)

/-- One controller step. -/
def step : Event → DashState → DashState
  | .mountEv nowDay rnd, s => mount nowDay rnd s
  | .clickEv, s => refreshClick s
  | .timerEv nowDay rnd, s => timerFire nowDay rnd s

/-- The spec's display states.  A missing snapshot renders the
`Loading analytics...` placeholder; with a snapshot, `isLoading`
distinguishes `Refreshing` (stale data kept visible) from `Ready`. -/
inductive DisplayState where
  | Loading : DisplayState
  | Ready (d : AnalyticsData) : DisplayState
  | Refreshing (d : AnalyticsData) : DisplayState
deriving DecidableEq

/-- The display state a controller state renders as. -/
def displayOf (s : DashState) : DisplayState :=
  match s.analyticsData, s.isLoading with
  | none, _ => .Loading
  | some d, false => .Ready d
  | some d, true => .Refreshing d

/-! ## Encoding of the persisted wrapper -/

/-- The wrapper `{ analyticsData: d }` exchanged with the host, as a JSON
value. -/
def mkWrapper (d : Json) : Json :=
  .obj [("analyticsData", d)]

/-- Modelled from the spec: `Encode` — the host-context layer (not under
`src/`) serializes the persisted wrapper with `JSON.stringify` before
writing it to the host's string channel ("total, serializes the wrapper
object losslessly"). -/
def Encode (v : Json) : String :=
  jsonStringify v

/-- A character of the ISO-8601 charset used by the generator's `date`
and `lastUpdated` strings: digits, `-`, `:`, `.`, `T`, `Z`. -/
def isoChar (c : Char) : Bool :=
  isDigitChar c || c = '-' || c = ':' || c = '.' || c = 'T' || c = 'Z'

/-- A string drawn from the ISO-8601 charset. -/
def isoStr (s : String) : Bool :=
  s.data.all isoChar

/-- A JSON number. -/
def isNumJson : Json → Bool
  | .num _ _ => true
  | _ => false

/-- A serialized history entry: `{date: calendar-day string, views: number}`. -/
def isDayViewsJson : Json → Bool
  | .obj [("date", .str d), ("views", v)] => isoStr d && isNumJson v
  | _ => false

/-- A serialized 7-entry history array. -/
def isHistoryJson : Json → Bool
  | .arr h => (h.length == 7) && h.all isDayViewsJson
  | _ => false

/-- An ISO-8601 JSON string. -/
def isStrIso : Json → Bool
  | .str s => isoStr s
  | _ => false

/-- A well-formed serialized `AnalyticsSnapshot` (spec section 3, in the
generator's field order): numeric `pageViews`, `uniqueVisitors`,
`bounceRate`, `avgTimeOnPage`, an ISO-8601 `lastUpdated` string, and a
7-entry `pageViewsHistory` of `{date, views}` records. -/
def IsSnapshotJson : Json → Bool
  | .obj [("pageViews", pv), ("uniqueVisitors", uv), ("bounceRate", br),
          ("avgTimeOnPage", tp), ("lastUpdated", lu), ("pageViewsHistory", h)] =>
      isNumJson pv && isNumJson uv && isNumJson br && isNumJson tp &&
        isStrIso lu && isHistoryJson h
  | _ => false

/-! ## Generator lemmas -/

/-- Unfolding `generateFakeAnalytics`: the history list. -/
lemma gfa_history (nowDay : Int) (rnd : RandomDraws) :
    (generateFakeAnalytics nowDay rnd).pageViewsHistory =
      (List.range 7).map (fun (i : Nat) =>
        { date := nowDay - ((7 : Int) - 1 - (i : Int))
          views := ⌊rnd.views i * 500⌋ + 100 }) := rfl

/-- Unfolding `generateFakeAnalytics`: `pageViews` is the `reduce` sum of
the history's `views`. -/
lemma gfa_pageViews (nowDay : Int) (rnd : RandomDraws) :
    (generateFakeAnalytics nowDay rnd).pageViews =
      (((generateFakeAnalytics nowDay rnd).pageViewsHistory).map
        (fun d => d.views)).foldl (· + ·) 0 := rfl

/-- Unfolding `generateFakeAnalytics`: `uniqueVisitors`. -/
lemma gfa_uniqueVisitors (nowDay : Int) (rnd : RandomDraws) :
    (generateFakeAnalytics nowDay rnd).uniqueVisitors =
      ⌊((generateFakeAnalytics nowDay rnd).pageViews : ℚ) * (0.6 + rnd.uv * 0.2)⌋ := rfl

/-- A left fold of `+` over nonnegative integers from a nonnegative
accumulator stays nonnegative. -/
lemma foldl_add_nonneg (l : List Int) (acc : Int) (h : ∀ x ∈ l, 0 ≤ x) (hacc : 0 ≤ acc) :
    0 ≤ l.foldl (· + ·) acc := by
  induction l generalizing acc with
  | nil => simpa using hacc
  | cons x xs ih =>
      have hx : 0 ≤ x := h x (by simp)
      have := ih (acc + x) (fun y hy => h y (by simp [hy])) (by omega)
      simpa using this

/-- Each generated day's `views` is nonnegative (it is at least 100). -/
lemma gfa_views_nonneg (nowDay : Int) (rnd : RandomDraws) (h : rnd.Valid) :
    ∀ e ∈ (generateFakeAnalytics nowDay rnd).pageViewsHistory, 0 ≤ e.views := by
  intro e he
  rw [gfa_history] at he
  simp only [List.mem_map, List.mem_range] at he
  obtain ⟨i, -, rfl⟩ := he
  have h0 : (0 : ℚ) ≤ rnd.views i * 500 := mul_nonneg (h.1 i).1 (by norm_num)
  have : (0 : ℤ) ≤ ⌊rnd.views i * 500⌋ := Int.floor_nonneg.mpr h0
  simpa using by omega

/-- The generated `pageViews` total is nonnegative. -/
lemma gfa_pageViews_nonneg (nowDay : Int) (rnd : RandomDraws) (h : rnd.Valid) :
    0 ≤ (generateFakeAnalytics nowDay rnd).pageViews := by
  rw [gfa_pageViews]
  refine foldl_add_nonneg _ _ ?_ le_rfl
  intro x hx
  simp only [List.mem_map] at hx
  obtain ⟨e, he, rfl⟩ := hx
  exact gfa_views_nonneg nowDay rnd h e he

/-- Fixed draw stream used by concrete witnesses: every draw is 0. -/
def rnd0 : RandomDraws :=
  { views := fun _ => 0, uv := 0, bounce := 0, time := 0 }

/-- `rnd0` is a legitimate outcome of `Math.random()`. -/
lemma rnd0_valid : rnd0.Valid := by
  refine ⟨fun i => ⟨le_refl 0, by norm_num [rnd0]⟩, ?_, ?_, ?_⟩ <;>
    exact ⟨le_refl 0, by norm_num [rnd0]⟩

/-! ## Controller lemmas -/

/-- Inversion: rendering `Ready S0` means the snapshot is installed and no
refresh is in flight. -/
lemma displayOf_ready {s : DashState} {S0 : AnalyticsData}
    (h : displayOf s = .Ready S0) : s.analyticsData = some S0 ∧ s.isLoading = false := by
  rcases hd : s.analyticsData with - | d <;> rcases hl : s.isLoading <;>
    simp only [displayOf, hd, hl] at h <;> simp_all

/-! # Claim theorems -/

/-- C7: for every outcome of the randomness, the generated snapshot
satisfies `0 ≤ uniqueVisitors ≤ pageViews`. -/
theorem uniqueVisitors_le_pageViews (nowDay : Int) (rnd : RandomDraws) (h : rnd.Valid) :
    0 ≤ (generateFakeAnalytics nowDay rnd).uniqueVisitors ∧
      (generateFakeAnalytics nowDay rnd).uniqueVisitors ≤
        (generateFakeAnalytics nowDay rnd).pageViews := by
  have hT : 0 ≤ (generateFakeAnalytics nowDay rnd).pageViews :=
    gfa_pageViews_nonneg nowDay rnd h
  have hTQ : (0 : ℚ) ≤ ((generateFakeAnalytics nowDay rnd).pageViews : ℚ) := by
    exact_mod_cast hT
  have hf0 : (0 : ℚ) ≤ 0.6 + rnd.uv * 0.2 := by nlinarith [h.2.1.1]
  have hf1 : (0.6 : ℚ) + rnd.uv * 0.2 ≤ 1 := by nlinarith [h.2.1.2]
  constructor
  · rw [gfa_uniqueVisitors]
    exact Int.floor_nonneg.mpr (mul_nonneg hTQ hf0)
  · rw [gfa_uniqueVisitors]
    calc ⌊((generateFakeAnalytics nowDay rnd).pageViews : ℚ) * (0.6 + rnd.uv * 0.2)⌋
        ≤ ⌊((generateFakeAnalytics nowDay rnd).pageViews : ℚ)⌋ :=
          Int.floor_le_floor (mul_le_of_le_one_right hTQ hf1)
      _ = (generateFakeAnalytics nowDay rnd).pageViews := Int.floor_intCast _

/-- Witness for C7 at the all-zero draw stream. -/
theorem uniqueVisitors_le_pageViews_witness :
    rnd0.Valid ∧
      (0 ≤ (generateFakeAnalytics 0 rnd0).uniqueVisitors ∧
        (generateFakeAnalytics 0 rnd0).uniqueVisitors ≤
          (generateFakeAnalytics 0 rnd0).pageViews) :=
  ⟨rnd0_valid, uniqueVisitors_le_pageViews 0 rnd0 rnd0_valid⟩

/-- C8: the generated history has exactly 7 entries, one per consecutive
calendar day ending at the generation day, oldest first, each with an
integer `views ≥ 0`. -/
theorem history_seven_consecutive_days (nowDay : Int) (rnd : RandomDraws) (h : rnd.Valid) :
    (generateFakeAnalytics nowDay rnd).pageViewsHistory =
      (List.range 7).map (fun (i : Nat) =>
        { date := nowDay - 6 + (i : Int), views := ⌊rnd.views i * 500⌋ + 100 }) ∧
    (generateFakeAnalytics nowDay rnd).pageViewsHistory.length = 7 ∧
    ∀ e ∈ (generateFakeAnalytics nowDay rnd).pageViewsHistory, 0 ≤ e.views := by
  refine ⟨?_, ?_, gfa_views_nonneg nowDay rnd h⟩
  · rw [gfa_history]
    refine List.map_congr_left ?_
    intro i _
    congr 1
    push_cast
    ring
  · rw [gfa_history]
    simp

/-- Witness for C8 at the all-zero draw stream. -/
theorem history_seven_consecutive_days_witness :
    rnd0.Valid ∧
      ((generateFakeAnalytics 0 rnd0).pageViewsHistory =
        (List.range 7).map (fun (i : Nat) =>
          { date := (0 : Int) - 6 + (i : Int), views := ⌊rnd0.views i * 500⌋ + 100 }) ∧
      (generateFakeAnalytics 0 rnd0).pageViewsHistory.length = 7 ∧
      ∀ e ∈ (generateFakeAnalytics 0 rnd0).pageViewsHistory, 0 ≤ e.views) :=
  ⟨rnd0_valid, history_seven_consecutive_days 0 rnd0 rnd0_valid⟩

/-- C6: `isConfig` rejects exactly `null`; any non-null object, the empty
object included, passes with no field inspected. -/
theorem isConfig_false_iff_null :
    (∀ v, isConfig v = false ↔ v = none) ∧ isConfig (some []) = true := by
  constructor
  · intro v
    cases v <;> simp [isConfig]
  · rfl

/-- C5: mounting over a persisted non-null snapshot `S0` ends in
`Ready S0`, performs no write, never calls the generator, and leaves the
host value channel unchanged. -/
theorem mount_with_snapshot_no_write (S0 : AnalyticsData) (nowDay : Int) (rnd : RandomDraws) :
    displayOf (mount nowDay rnd (initState (.value (some S0)))) = .Ready S0 ∧
    (mount nowDay rnd (initState (.value (some S0)))).writes = [] ∧
    (mount nowDay rnd (initState (.value (some S0)))).genCount = 0 ∧
    (mount nowDay rnd (initState (.value (some S0)))).hostValue = .value (some S0) := by
  refine ⟨rfl, rfl, rfl, rfl⟩

/-- C4: mounting with no persisted snapshot (decoded `null`,
`"invalidValue"`, or a wrapper with `analyticsData` null) calls the
generator exactly once, ends `Ready` on a 7-day snapshot, and performs
exactly one persisted write. -/
theorem mount_without_snapshot_generates_once (decoded : DecodedValue) (nowDay : Int)
    (rnd : RandomDraws) (h : dataOf decoded = none) :
    (mount nowDay rnd (initState decoded)).genCount = 1 ∧
    displayOf (mount nowDay rnd (initState decoded)) =
      .Ready (generateFakeAnalytics nowDay rnd) ∧
    (generateFakeAnalytics nowDay rnd).pageViewsHistory.length = 7 ∧
    (mount nowDay rnd (initState decoded)).writes =
      [{ analyticsData := some (generateFakeAnalytics nowDay rnd) }] := by
  have hlen : (generateFakeAnalytics nowDay rnd).pageViewsHistory.length = 7 := by
    rw [gfa_history]; simp
  refine ⟨?_, ?_, hlen, ?_⟩ <;>
    simp [mount, initState, h, setValueStep, displayOf]

/-- Witness for C4: mount over a decoded `null`. -/
theorem mount_without_snapshot_generates_once_witness :
    dataOf .nullValue = none ∧
      ((mount 0 rnd0 (initState .nullValue)).genCount = 1 ∧
      displayOf (mount 0 rnd0 (initState .nullValue)) =
        .Ready (generateFakeAnalytics 0 rnd0) ∧
      (generateFakeAnalytics 0 rnd0).pageViewsHistory.length = 7 ∧
      (mount 0 rnd0 (initState .nullValue)).writes =
        [{ analyticsData := some (generateFakeAnalytics 0 rnd0) }]) :=
  ⟨rfl, mount_without_snapshot_generates_once .nullValue 0 rnd0 rfl⟩

/-- C1: a refresh from `Ready S0` synchronously shows `Refreshing S0` with
no write and no synthesis yet; a second click while pending changes
nothing at all; when the scheduled callback fires, the controller reaches
`Ready` on the freshly generated snapshot with exactly one more write and
one generator call. -/
theorem refresh_from_ready_protocol (s : DashState) (S0 : AnalyticsData) (nowDay : Int)
    (rnd : RandomDraws) (hready : displayOf s = .Ready S0) (hidle : s.pendingTimers = 0) :
    displayOf (refreshClick s) = .Refreshing S0 ∧
    (refreshClick s).writes = s.writes ∧
    (refreshClick s).genCount = s.genCount ∧
    refreshClick (refreshClick s) = refreshClick s ∧
    displayOf (timerFire nowDay rnd (refreshClick s)) =
      .Ready (generateFakeAnalytics nowDay rnd) ∧
    (timerFire nowDay rnd (refreshClick s)).writes =
      s.writes ++ [{ analyticsData := some (generateFakeAnalytics nowDay rnd) }] ∧
    (timerFire nowDay rnd (refreshClick s)).genCount = s.genCount + 1 ∧
    (timerFire nowDay rnd (refreshClick s)).pendingTimers = 0 := by
  obtain ⟨hd, hl⟩ := displayOf_ready hready
  refine ⟨?_, ?_, ?_, ?_, ?_, ?_, ?_, ?_⟩ <;>
    simp [refreshClick, timerFire, setValueStep, displayOf, hd, hl, hidle]

/-- Witness for C1 from a concrete `Ready` state. -/
theorem refresh_from_ready_protocol_witness :
    displayOf (mount 0 rnd0 (initState .nullValue)) =
      .Ready (generateFakeAnalytics 0 rnd0) ∧
    (mount 0 rnd0 (initState .nullValue)).pendingTimers = 0 ∧
    (displayOf (refreshClick (mount 0 rnd0 (initState .nullValue))) =
      .Refreshing (generateFakeAnalytics 0 rnd0) ∧
    (refreshClick (mount 0 rnd0 (initState .nullValue))).writes =
      (mount 0 rnd0 (initState .nullValue)).writes ∧
    (refreshClick (mount 0 rnd0 (initState .nullValue))).genCount =
      (mount 0 rnd0 (initState .nullValue)).genCount ∧
    refreshClick (refreshClick (mount 0 rnd0 (initState .nullValue))) =
      refreshClick (mount 0 rnd0 (initState .nullValue)) ∧
    displayOf (timerFire 1 rnd0 (refreshClick (mount 0 rnd0 (initState .nullValue)))) =
      .Ready (generateFakeAnalytics 1 rnd0) ∧
    (timerFire 1 rnd0 (refreshClick (mount 0 rnd0 (initState .nullValue)))).writes =
      (mount 0 rnd0 (initState .nullValue)).writes ++
        [{ analyticsData := some (generateFakeAnalytics 1 rnd0) }] ∧
    (timerFire 1 rnd0 (refreshClick (mount 0 rnd0 (initState .nullValue)))).genCount =
      (mount 0 rnd0 (initState .nullValue)).genCount + 1 ∧
    (timerFire 1 rnd0 (refreshClick (mount 0 rnd0 (initState .nullValue)))).pendingTimers = 0) :=
  ⟨rfl, rfl, refresh_from_ready_protocol (mount 0 rnd0 (initState .nullValue))
    (generateFakeAnalytics 0 rnd0) 1 rnd0 rfl rfl⟩

/-- C10: every persisted write any controller step makes is exactly the
wrapper of the snapshot that same step installs as the displayed state. -/
theorem write_installs_displayed_snapshot (e : Event) (s : DashState) :
    (step e s).writes = s.writes ∨
    ∃ d, (step e s).writes = s.writes ++ [{ analyticsData := some d }] ∧
      (step e s).analyticsData = some d ∧
      (step e s).hostValue = .value (some d) := by
  cases e with
  | mountEv nowDay rnd =>
      rcases hd : dataOf s.hostValue with - | d
      · exact Or.inr ⟨generateFakeAnalytics nowDay rnd, by simp [step, mount, hd, setValueStep]⟩
      · exact Or.inl (by simp [step, mount, hd])
  | clickEv =>
      rcases hl : s.isLoading <;> exact Or.inl (by simp [step, refreshClick, hl])
  | timerEv nowDay rnd =>
      rcases hp : s.pendingTimers with - | n
      · exact Or.inl (by simp [step, timerFire, hp])
      · exact Or.inr ⟨generateFakeAnalytics nowDay rnd, by simp [step, timerFire, hp, setValueStep]⟩

/-! ## Codec lemmas -/

/-- When the membership test returns cleanly, it computes key presence. -/
lemma jsonHasKey_of_isValidValue (j : Json) (b : Bool) (h : isValidValue j = .ok b) :
    jsonHasKey j = b := by
  cases j <;> simp_all [isValidValue, jsonHasKey]

/-- When the membership test throws, the value has no `analyticsData`
property (it is a primitive). -/
lemma jsonHasKey_false_of_isValidValue_error (j : Json) (e : JsErr)
    (h : isValidValue j = .error e) : jsonHasKey j = false := by
  cases j <;> simp_all [isValidValue, jsonHasKey]

/-- Key presence implies the membership test succeeds with `true`. -/
lemma isValidValue_of_jsonHasKey (j : Json) (h : jsonHasKey j = true) :
    isValidValue j = .ok true := by
  cases j <;> simp_all [isValidValue, jsonHasKey]

/-- C2: `parseValue null = null`; a non-null string maps to
`"invalidValue"` exactly when it is not valid JSON or its parse lacks an
`analyticsData` property; otherwise the parsed object is returned as-is
(no deep validation of the property's value). -/
theorem parseValue_invalid_iff :
    parseValue none = .nullResult ∧
    (∀ s : String, parseValue (some s) = .invalidValue ↔
        jsonParse s = none ∨ ∃ j, jsonParse s = some j ∧ jsonHasKey j = false) ∧
    (∀ (s : String) (j : Json), jsonParse s = some j → jsonHasKey j = true →
      parseValue (some s) = .value j) := by
  refine ⟨rfl, ?_, ?_⟩
  · intro s
    rcases hp : jsonParse s with - | j
    · simp [parseValue, parseValueTry, hp]
    · rcases hv : isValidValue j with e | b
      · have hk := jsonHasKey_false_of_isValidValue_error j e hv
        simp [parseValue, parseValueTry, hp, hv, hk]
      · have hk := jsonHasKey_of_isValidValue j b hv
        cases b <;> simp [parseValue, parseValueTry, hp, hv, hk]
  · intro s j hp hk
    simp [parseValue, parseValueTry, hp, isValidValue_of_jsonHasKey j hk]

/-- Witness for C2: a wrapper whose `analyticsData` is the wrong-typed
value `true` still decodes as-is (presence-only check). -/
theorem parseValue_invalid_iff_witness :
    jsonParse "\x7b\x22analyticsData\x22:true\x7d" =
      some (Json.obj [("analyticsData", Json.bool true)]) ∧
    jsonHasKey (Json.obj [("analyticsData", Json.bool true)]) = true ∧
    parseValue (some "\x7b\x22analyticsData\x22:true\x7d") =
      .value (Json.obj [("analyticsData", Json.bool true)]) :=
  ⟨rfl, rfl, parseValue_invalid_iff.2.2 _ _ rfl rfl⟩

/-- C9: `parseValue` is total — every input yields `null`,
`"invalidValue"` or a value — and in particular the `TypeError` the
membership test raises on JSON primitives (JSON `null` included) is
caught inside and mapped to `"invalidValue"`. -/
theorem parseValue_never_throws :
    (∀ input, parseValue input = .nullResult ∨ parseValue input = .invalidValue ∨
      ∃ j, parseValue input = .value j) ∧
    (∀ (s : String) (j : Json), jsonParse s = some j →
      isValidValue j = .error .typeError →
      parseValueTry s = .error .typeError ∧ parseValue (some s) = .invalidValue) := by
  constructor
  · rintro (- | s)
    · exact Or.inl rfl
    · rcases hp : jsonParse s with - | j
      · exact Or.inr (Or.inl (by simp [parseValue, parseValueTry, hp]))
      · rcases hv : isValidValue j with e | b
        · exact Or.inr (Or.inl (by simp [parseValue, parseValueTry, hp, hv]))
        · cases b
          · exact Or.inr (Or.inl (by simp [parseValue, parseValueTry, hp, hv]))
          · exact Or.inr (Or.inr ⟨j, by simp [parseValue, parseValueTry, hp, hv]⟩)
  · intro s j hp hv
    constructor <;> simp [parseValue, parseValueTry, hp, hv]

/-- Witness for C9: `"null"` parses to the JSON primitive `null`, on which
the membership test throws `TypeError`, yet `parseValue` returns
`"invalidValue"`. -/
theorem parseValue_never_throws_witness :
    jsonParse "null" = some Json.null ∧
    isValidValue Json.null = .error .typeError ∧
    (parseValueTry "null" = .error .typeError ∧
      parseValue (some "null") = .invalidValue) :=
  ⟨rfl, rfl, parseValue_never_throws.2 "null" Json.null rfl rfl⟩

/-! ## Round-trip: character and digit lemmas -/

/-- `digitChar` always yields a digit character. -/
lemma digitChar_isDigit (d : Nat) : isDigitChar (digitChar d) = true := by
  unfold digitChar
  split <;> decide

/-- Code of `digitChar d` for `d < 10`. -/
lemma digitChar_toNat (d : Nat) (h : d < 10) : (digitChar d).toNat = 48 + d := by
  interval_cases d <;> decide

/-- Numeric reading of a digit predicate hit. -/
lemma isDigitChar_toNat {c : Char} (h : isDigitChar c = true) :
    48 ≤ c.toNat ∧ c.toNat ≤ 57 := by
  simpa [isDigitChar] using h

/-- A serialized number's first character is not one of the parser's
keyword, string, array or object openers. -/
lemma numHead_ne {c : Char} (h : c = '-' ∨ isDigitChar c = true) :
    c ≠ 'n' ∧ c ≠ 't' ∧ c ≠ 'f' ∧ c ≠ '\x22' ∧ c ≠ '[' ∧ c ≠ '\x7b' := by
  rcases h with rfl | h
  · refine ⟨?_, ?_, ?_, ?_, ?_, ?_⟩ <;> decide
  · have hb := isDigitChar_toNat h
    refine ⟨?_, ?_, ?_, ?_, ?_, ?_⟩ <;> (rintro rfl; revert hb; decide)

/-- A value's first serialized character never closes an array or an
object. -/
lemma jsonHead_ne_close {c : Char}
    (h : c = 'n' ∨ c = 't' ∨ c = 'f' ∨ c = '\x22' ∨ c = '[' ∨ c = '\x7b' ∨
      c = '-' ∨ isDigitChar c = true) :
    c ≠ ']' ∧ c ≠ '\x7d' := by
  rcases h with rfl | rfl | rfl | rfl | rfl | rfl | rfl | h
  · exact ⟨by decide, by decide⟩
  · exact ⟨by decide, by decide⟩
  · exact ⟨by decide, by decide⟩
  · exact ⟨by decide, by decide⟩
  · exact ⟨by decide, by decide⟩
  · exact ⟨by decide, by decide⟩
  · exact ⟨by decide, by decide⟩
  · have hb := isDigitChar_toNat h
    constructor <;> (rintro rfl; revert hb; decide)

/-- `NumSafe` holds for any rest opened by a non-digit, non-dot character. -/
lemma numSafe_cons {c : Char} (r : List Char) (h1 : isDigitChar c = false)
    (h2 : c ≠ '.') : NumSafe (c :: r) := by
  intro c' hc'
  simp only [List.head?] at hc'
  cases hc'
  exact ⟨h1, h2⟩

/-- The empty rest is `NumSafe`. -/
lemma numSafe_nil : NumSafe [] := by
  intro c hc
  simp at hc

/-- Splitting `takeWhile`/`dropWhile` over an append at the first
predicate failure. -/
lemma takeWhile_dropWhile_append {p : Char → Bool} (ds rest : List Char)
    (h2 : ∀ c, rest.head? = some c → p c = false) (h1 : ∀ c ∈ ds, p c = true) :
    (ds ++ rest).takeWhile p = ds ∧ (ds ++ rest).dropWhile p = rest := by
  induction ds with
  | nil =>
      simp only [List.nil_append]
      cases rest with
      | nil => simp
      | cons c t =>
          have := h2 c rfl
          simp [List.takeWhile_cons, List.dropWhile_cons, this]
  | cons d ds ih =>
      have hd : p d = true := h1 d (by simp)
      have ht := ih (fun c hc => h1 c (by simp [hc]))
      simp [List.takeWhile_cons, List.dropWhile_cons, hd, ht]

/-! ## Round-trip: decimal notation lemmas -/

/-- Every character `natCharsAux` emits is a digit. -/
lemma natCharsAux_digits (n : Nat) : ∀ c ∈ natCharsAux n, isDigitChar c = true := by
  induction n using Nat.strong_induction_on with
  | _ n ih =>
      intro c hc
      rw [natCharsAux] at hc
      by_cases h0 : n = 0
      · simp [h0] at hc
      · simp only [h0, if_false, List.mem_append, List.mem_singleton] at hc
        rcases hc with hc | rfl
        · exact ih (n / 10) (Nat.div_lt_self (Nat.pos_of_ne_zero h0) (by omega)) c hc
        · exact digitChar_isDigit _

/-- `natCharsAux` emits no characters only for 0. -/
lemma natCharsAux_ne_nil {n : Nat} (h : n ≠ 0) : natCharsAux n ≠ [] := by
  rw [natCharsAux]
  simp [h]

/-- Reading digits appended on the right. -/
lemma digitsVal_append_singleton (l : List Char) (c : Char) :
    digitsVal (l ++ [c]) = digitsVal l * 10 + (c.toNat - 48) := by
  simp [digitsVal, List.foldl_append]

/-- `natCharsAux` prints the decimal notation of its argument. -/
lemma digitsVal_natCharsAux (n : Nat) : digitsVal (natCharsAux n) = n := by
  induction n using Nat.strong_induction_on with
  | _ n ih =>
      rw [natCharsAux]
      by_cases h0 : n = 0
      · simp [h0, digitsVal]
      · have hlt : n / 10 < n := Nat.div_lt_self (Nat.pos_of_ne_zero h0) (by omega)
        simp only [h0, if_false, digitsVal_append_singleton, ih (n / 10) hlt,
          digitChar_toNat (n % 10) (Nat.mod_lt n (by omega))]
        omega

/-- Every character `natChars` emits is a digit. -/
lemma natChars_digits (n : Nat) : ∀ c ∈ natChars n, isDigitChar c = true := by
  intro c hc
  unfold natChars at hc
  by_cases h0 : n = 0
  · simp [h0] at hc
    simp [hc]
    decide
  · simp only [h0, if_false] at hc
    exact natCharsAux_digits n c hc

/-- `natChars` prints the decimal notation of its argument. -/
lemma digitsVal_natChars (n : Nat) : digitsVal (natChars n) = n := by
  unfold natChars
  by_cases h0 : n = 0
  · simp [h0]
    decide
  · simp only [h0, if_false, digitsVal_natCharsAux]

/-- `natChars` always emits at least one character. -/
lemma natChars_ne_nil (n : Nat) : natChars n ≠ [] := by
  unfold natChars
  by_cases h0 : n = 0
  · simp [h0]
  · simp only [h0, if_false]
    exact natCharsAux_ne_nil h0

/-- `natChars` starts with a digit. -/
lemma natChars_head (n : Nat) :
    ∃ c t, natChars n = c :: t ∧ isDigitChar c = true := by
  rcases hn : natChars n with - | ⟨c, t⟩
  · exact absurd hn (natChars_ne_nil n)
  · exact ⟨c, t, rfl, natChars_digits n c (by rw [hn]; simp)⟩

/-- `natCharsPad` emits exactly `f` characters. -/
lemma natCharsPad_length (f k : Nat) : (natCharsPad f k).length = f := by
  induction f generalizing k with
  | zero => rfl
  | succ f ih => simp [natCharsPad, ih]

/-- Every character `natCharsPad` emits is a digit. -/
lemma natCharsPad_digits (f k : Nat) : ∀ c ∈ natCharsPad f k, isDigitChar c = true := by
  induction f generalizing k with
  | zero => simp [natCharsPad]
  | succ f ih =>
      intro c hc
      simp only [natCharsPad, List.mem_append, List.mem_singleton] at hc
      rcases hc with hc | rfl
      · exact ih (k / 10) c hc
      · exact digitChar_isDigit _

/-- `natCharsPad` prints its argument zero padded, for `k < 10 ^ f`. -/
lemma digitsVal_natCharsPad (f k : Nat) (h : k < 10 ^ f) :
    digitsVal (natCharsPad f k) = k := by
  induction f generalizing k with
  | zero =>
      interval_cases k
      rfl
  | succ f ih =>
      have hk : k / 10 < 10 ^ f := by
        rw [Nat.div_lt_iff_lt_mul (by omega)]
        calc k < 10 ^ (f + 1) := h
          _ = 10 ^ f * 10 := by ring
      simp only [natCharsPad, digitsVal_append_singleton, ih (k / 10) hk,
        digitChar_toNat (k % 10) (Nat.mod_lt k (by omega))]
      omega

/-! ## Round-trip: number parsing -/

/-- Nonempty lists are not `isEmpty`. -/
lemma isEmpty_false_of_ne_nil {l : List Char} (h : l ≠ []) : l.isEmpty = false := by
  cases l with
  | nil => exact absurd rfl h
  | cons c t => rfl

/-- The unsigned digit notation of `numChars`, without the sign. -/
def numBody (a f : Nat) : List Char :=
  if f = 0 then natChars a
  else natChars (a / 10 ^ f) ++ ['.'] ++ natCharsPad f (a % 10 ^ f)

/-- `numChars` is the optional sign followed by `numBody`. -/
lemma numChars_eq (m : Int) (f : Nat) :
    numChars m f = (if m < 0 then ['-'] else []) ++ numBody m.natAbs f := rfl

/-- `numBody` starts with a digit. -/
lemma numBody_head (a f : Nat) :
    ∃ c t, numBody a f = c :: t ∧ isDigitChar c = true := by
  unfold numBody
  by_cases hf : f = 0
  · simpa [hf] using natChars_head a
  · obtain ⟨c, t, hct, hcd⟩ := natChars_head (a / 10 ^ f)
    exact ⟨c, t ++ ['.'] ++ natCharsPad f (a % 10 ^ f), by simp [hf, hct], hcd⟩

/-- `parseNumNat` reparses `numBody` exactly, leaving a `NumSafe` rest. -/
lemma parseNumNat_numBody (a f : Nat) (rest : List Char) (hrest : NumSafe rest) :
    parseNumNat (numBody a f ++ rest) = some ((a, f), rest) := by
  by_cases hf : f = 0
  · subst hf
    obtain ⟨htake, hdrop⟩ :=
      takeWhile_dropWhile_append (natChars a) rest (fun c hc => (hrest c hc).1)
        (natChars_digits a)
    have hdot : ¬(rest.head? = some '.') := fun hh => ((hrest '.' hh).2 rfl)
    have hne : (natChars a).isEmpty = false := isEmpty_false_of_ne_nil (natChars_ne_nil a)
    have hb : numBody a 0 = natChars a := by simp [numBody]
    rw [hb]
    simp only [parseNumNat, htake, hdrop, hne, if_neg hdot,
      Bool.false_eq_true, if_false, digitsVal_natChars]
  · have hassoc : numBody a f ++ rest =
        natChars (a / 10 ^ f) ++ ('.' :: (natCharsPad f (a % 10 ^ f) ++ rest)) := by
      simp [numBody, hf]
    obtain ⟨htake, hdrop⟩ :=
      takeWhile_dropWhile_append (natChars (a / 10 ^ f))
        ('.' :: (natCharsPad f (a % 10 ^ f) ++ rest))
        (fun c hc => by simp at hc; subst hc; decide)
        (natChars_digits (a / 10 ^ f))
    obtain ⟨htake2, hdrop2⟩ :=
      takeWhile_dropWhile_append (natCharsPad f (a % 10 ^ f)) rest
        (fun c hc => (hrest c hc).1) (natCharsPad_digits f (a % 10 ^ f))
    have hne : (natChars (a / 10 ^ f)).isEmpty = false :=
      isEmpty_false_of_ne_nil (natChars_ne_nil _)
    have hpadne : (natCharsPad f (a % 10 ^ f)).isEmpty = false := by
      refine isEmpty_false_of_ne_nil ?_
      intro hnil
      have := natCharsPad_length f (a % 10 ^ f)
      rw [hnil] at this
      simp at this
      omega
    have hmod : a % 10 ^ f < 10 ^ f := Nat.mod_lt a (by positivity)
    have hval : digitsVal (natChars (a / 10 ^ f)) * 10 ^ (natCharsPad f (a % 10 ^ f)).length
        + digitsVal (natCharsPad f (a % 10 ^ f)) = a := by
      rw [digitsVal_natChars, natCharsPad_length, digitsVal_natCharsPad f _ hmod]
      have h2 := Nat.div_add_mod a (10 ^ f)
      rw [Nat.mul_comm] at h2
      omega
    rw [hassoc]
    simp only [parseNumNat, htake, hdrop, hne, Bool.false_eq_true, if_false,
      List.head?, if_pos rfl, List.tail, htake2, hdrop2, hpadne,
      natCharsPad_length, hval]
    rw [natCharsPad_length] at hval
    simp [hval]

/-- `parseNum` reparses `numChars` exactly. -/
lemma parseNum_numChars (m : Int) (f : Nat) (rest : List Char) (hrest : NumSafe rest) :
    parseNum (numChars m f ++ rest) = some ((m, f), rest) := by
  obtain ⟨c, t, hct, hcd⟩ := numBody_head m.natAbs f
  by_cases hm : m < 0
  · have hcs : numChars m f ++ rest = '-' :: (numBody m.natAbs f ++ rest) := by
      simp [numChars_eq, hm]
    rw [hcs]
    have : (m.natAbs : Int) = -m := by omega
    simp [parseNum, parseNumNat_numBody m.natAbs f rest hrest, this]
  · have hcs : numChars m f ++ rest = numBody m.natAbs f ++ rest := by
      simp [numChars_eq, hm]
    have hnd : ¬((numBody m.natAbs f ++ rest).head? = some '-') := by
      rw [hct]
      intro hh
      simp at hh
      subst hh
      revert hcd
      decide
    have : (m.natAbs : Int) = m := by omega
    rw [hcs]
    unfold parseNum
    rw [if_neg hnd]
    simp [parseNumNat_numBody m.natAbs f rest hrest, this]

/-- `numChars` starts with a sign or a digit. -/
lemma numChars_head (m : Int) (f : Nat) :
    ∃ c t, numChars m f = c :: t ∧ (c = '-' ∨ isDigitChar c = true) := by
  obtain ⟨c, t, hct, hcd⟩ := numBody_head m.natAbs f
  by_cases hm : m < 0
  · exact ⟨'-', numBody m.natAbs f, by simp [numChars_eq, hm], Or.inl rfl⟩
  · exact ⟨c, t, by simp [numChars_eq, hm, hct], Or.inr hcd⟩

/-! ## Round-trip: head shapes and fuel positivity -/

/-- The serializer's keyword cases, as string data. -/
lemma jsonChars_null_eq : jsonChars Json.null = "null".data := by simp [jsonChars]

/-- The serializer's `true` case. -/
lemma jsonChars_true_eq : jsonChars (Json.bool true) = "true".data := by simp [jsonChars]

/-- The serializer's `false` case. -/
lemma jsonChars_false_eq : jsonChars (Json.bool false) = "false".data := by simp [jsonChars]

/-- The serialized form of any value is nonempty and starts with one of
the parser's dispatch characters. -/
lemma jsonChars_head (j : Json) :
    ∃ c t, jsonChars j = c :: t ∧ (c = 'n' ∨ c = 't' ∨ c = 'f' ∨ c = '\x22' ∨
      c = '[' ∨ c = '\x7b' ∨ c = '-' ∨ isDigitChar c = true) := by
  cases j with
  | null => exact ⟨'n', "ull".data, by rw [jsonChars_null_eq], by tauto⟩
  | bool b =>
      cases b
      · exact ⟨'f', "alse".data, by rw [jsonChars_false_eq], by tauto⟩
      · exact ⟨'t', "rue".data, by rw [jsonChars_true_eq], by tauto⟩
  | num m fd =>
      obtain ⟨c, t, hct, hcd⟩ := numChars_head m fd
      exact ⟨c, t, by simp [jsonChars, hct], by tauto⟩
  | str s => exact ⟨'\x22', s.data ++ ['\x22'], by simp [jsonChars], by tauto⟩
  | arr es =>
      cases es with
      | nil => exact ⟨'[', [']'], by simp [jsonChars], by tauto⟩
      | cons e es' => exact ⟨'[', elemsChars e es', by simp [jsonChars], by tauto⟩
  | obj fs =>
      cases fs with
      | nil => exact ⟨'\x7b', ['\x7d'], by simp [jsonChars], by tauto⟩
      | cons f fs' => exact ⟨'\x7b', fieldsChars f fs', by simp [jsonChars], by tauto⟩

/-- A serialized element list starts with a value's first character, never
with a closing bracket or brace. -/
lemma elemsChars_head (e : Json) (es : List Json) :
    ∃ c t, elemsChars e es = c :: t ∧ c ≠ ']' ∧ c ≠ '\x7d' := by
  obtain ⟨c, t, hct, hc⟩ := jsonChars_head e
  obtain ⟨h1, h2⟩ := jsonHead_ne_close hc
  cases es with
  | nil => exact ⟨c, t ++ [']'], by simp [elemsChars, hct], h1, h2⟩
  | cons e2 es' => exact ⟨c, t ++ ',' :: elemsChars e2 es', by simp [elemsChars, hct], h1, h2⟩

/-- A serialized field list always starts with the key's opening quote. -/
lemma fieldsChars_head (fd : String × Json) (fs : List (String × Json)) :
    ∃ t, fieldsChars fd fs = '\x22' :: t := by
  obtain ⟨k, v⟩ := fd
  cases fs with
  | nil => exact ⟨k.data ++ '\x22' :: ':' :: jsonChars v ++ ['\x7d'], by simp [fieldsChars]⟩
  | cons f2 fs' =>
      exact ⟨k.data ++ '\x22' :: ':' :: jsonChars v ++ ',' :: fieldsChars f2 fs',
        by simp [fieldsChars]⟩

/-- Every value costs at least one unit of fuel. -/
lemma one_le_jfuel (j : Json) : 1 ≤ jfuel j := by
  cases j with
  | arr es => cases es <;> simp [jfuel]
  | obj fs => cases fs <;> simp [jfuel]
  | _ => simp [jfuel]

/-- Every element list costs at least one unit of fuel. -/
lemma one_le_efuel (e : Json) (es : List Json) : 1 ≤ efuel e es := by
  cases es
  all_goals (simp only [efuel]; omega)

/-- Every field list costs at least one unit of fuel. -/
lemma one_le_ffuel (fd : String × Json) (fs : List (String × Json)) : 1 ≤ ffuel fd fs := by
  obtain ⟨k, v⟩ := fd
  cases fs
  all_goals (simp only [ffuel]; omega)


/-! ## Round-trip: the parser reparses the serializer's output -/

/-- Unpacking `strOkB`. -/
lemma strOkB_mem {s : String} (h : strOkB s = true) : ∀ c ∈ s.data, strChar c = true := by
  simpa [strOkB, List.all_eq_true] using h

/-- With enough fuel, `parseJson` reparses `jsonChars j` before any
`NumSafe` rest, and likewise `parseElems`/`parseFields` on serialized
element and field lists. -/
theorem parse_sound (fuel : Nat) :
    (∀ j rest, jwf j = true → jfuel j ≤ fuel → NumSafe rest →
      parseJson fuel (jsonChars j ++ rest) = some (j, rest)) ∧
    (∀ e es rest, jwf e = true → lwf es = true → efuel e es ≤ fuel → NumSafe rest →
      parseElems fuel (elemsChars e es ++ rest) = some (e :: es, rest)) ∧
    (∀ k v fs rest, strOkB k = true → jwf v = true → fwf fs = true →
      ffuel (k, v) fs ≤ fuel → NumSafe rest →
      parseFields fuel (fieldsChars (k, v) fs ++ rest) = some ((k, v) :: fs, rest)) := by
  induction fuel with
  | zero =>
      refine ⟨?_, ?_, ?_⟩
      · intro j rest _ hfl _
        have := one_le_jfuel j
        omega
      · intro e es rest _ _ hfl _
        have := one_le_efuel e es
        omega
      · intro k v fs rest _ _ _ hfl _
        have := one_le_ffuel (k, v) fs
        omega
  | succ f ih =>
      obtain ⟨ihJ, ihE, ihF⟩ := ih
      refine ⟨?_, ?_, ?_⟩
      · intro j rest hwf hfl hns
        cases j with
        | null =>
            rw [jsonChars_null_eq]
            rfl
        | bool b =>
            cases b with
            | false =>
                rw [jsonChars_false_eq]
                rfl
            | true =>
                rw [jsonChars_true_eq]
                rfl
        | num m fd =>
            have hjc : jsonChars (.num m fd) = numChars m fd := by simp [jsonChars]
            obtain ⟨c, t, hct, hcd⟩ := numChars_head m fd
            have hne := numHead_ne hcd
            rw [hjc, hct, List.cons_append]
            simp only [parseJson]
            rw [if_neg hne.1, if_neg hne.2.1, if_neg hne.2.2.1, if_neg hne.2.2.2.1,
              if_neg hne.2.2.2.2.1, if_neg hne.2.2.2.2.2, ← List.cons_append, ← hct,
              parseNum_numChars m fd rest hns]
            rfl
        | str s =>
            have hwf' : ∀ c ∈ s.data, strChar c = true := strOkB_mem (by simpa [jwf] using hwf)
            have hjc : jsonChars (.str s) = '\x22' :: (s.data ++ ['\x22']) := by
              simp [jsonChars]
            have hassoc : (s.data ++ ['\x22']) ++ rest = s.data ++ ('\x22' :: rest) := by
              simp
            obtain ⟨htake, hdrop⟩ :=
              takeWhile_dropWhile_append s.data ('\x22' :: rest)
                (fun c hc => by simp at hc; subst hc; decide) hwf'
            rw [hjc, List.cons_append, hassoc]
            simp only [parseJson]
            rw [if_neg (by decide), if_neg (by decide), if_neg (by decide), if_pos trivial]
            simp [htake, hdrop]
        | arr es =>
            cases es with
            | nil =>
                have hjc : jsonChars (.arr []) = ['[', ']'] := by simp [jsonChars]
                rw [hjc]
                rfl
            | cons e es' =>
                have hwf' : jwf e = true ∧ lwf es' = true := by
                  simpa [jwf, lwf] using hwf
                have hfl' : efuel e es' ≤ f := by
                  simp only [jfuel] at hfl
                  omega
                have hjc : jsonChars (.arr (e :: es')) = '[' :: elemsChars e es' := by
                  simp [jsonChars]
                obtain ⟨c, t, hct, hc1, hc2⟩ := elemsChars_head e es'
                have hhead : ¬((elemsChars e es' ++ rest).head? = some ']') := by
                  rw [hct, List.cons_append]
                  intro hh
                  simp only [List.head?, Option.some.injEq] at hh
                  exact hc1 hh
                rw [hjc, List.cons_append]
                simp only [parseJson]
                rw [if_neg (by decide), if_neg (by decide), if_neg (by decide),
                  if_neg (by decide), if_pos trivial, if_neg hhead,
                  ihE e es' rest hwf'.1 hwf'.2 hfl' hns]
        | obj fs =>
            cases fs with
            | nil =>
                have hjc : jsonChars (.obj []) = ['\x7b', '\x7d'] := by simp [jsonChars]
                rw [hjc]
                rfl
            | cons fd fs' =>
                obtain ⟨k, v⟩ := fd
                have hwf' : strOkB k = true ∧ jwf v = true ∧ fwf fs' = true := by
                  simpa [jwf, fwf, and_assoc] using hwf
                have hfl' : ffuel (k, v) fs' ≤ f := by
                  simp only [jfuel] at hfl
                  omega
                have hjc : jsonChars (.obj ((k, v) :: fs')) =
                    '\x7b' :: fieldsChars (k, v) fs' := by
                  simp [jsonChars]
                obtain ⟨t, hct⟩ := fieldsChars_head (k, v) fs'
                have hhead : ¬((fieldsChars (k, v) fs' ++ rest).head? = some '\x7d') := by
                  rw [hct, List.cons_append]
                  intro hh
                  simp only [List.head?, Option.some.injEq] at hh
                  exact absurd hh (by decide)
                rw [hjc, List.cons_append]
                simp only [parseJson]
                rw [if_neg (by decide), if_neg (by decide), if_neg (by decide),
                  if_neg (by decide), if_neg (by decide), if_pos trivial, if_neg hhead,
                  ihF k v fs' rest hwf'.1 hwf'.2.1 hwf'.2.2 hfl' hns]
      · intro e es rest hwe hwes hfl hns
        cases es with
        | nil =>
            have hfl' : jfuel e ≤ f := by
              simp only [efuel] at hfl
              omega
            have hec : elemsChars e [] ++ rest = jsonChars e ++ (']' :: rest) := by
              simp [elemsChars]
            rw [hec]
            simp only [parseElems]
            rw [ihJ e (']' :: rest) hwe hfl' (numSafe_cons rest (by decide) (by decide))]
            rfl
        | cons e2 es' =>
            have hwf' : jwf e2 = true ∧ lwf es' = true := by
              simpa [lwf] using hwes
            have hfl1 : jfuel e ≤ f := by
              simp only [efuel] at hfl
              omega
            have hfl2 : efuel e2 es' ≤ f := by
              simp only [efuel] at hfl
              omega
            have hec : elemsChars e (e2 :: es') ++ rest =
                jsonChars e ++ (',' :: (elemsChars e2 es' ++ rest)) := by
              simp [elemsChars]
            rw [hec]
            simp only [parseElems]
            rw [ihJ e (',' :: (elemsChars e2 es' ++ rest)) hwe hfl1
              (numSafe_cons _ (by decide) (by decide))]
            simp [ihE e2 es' rest hwf'.1 hwf'.2 hfl2 hns]
      · intro k v fs rest hk hv hfs hfl hns
        cases fs with
        | nil =>
            have hfl' : jfuel v ≤ f := by
              simp only [ffuel] at hfl
              omega
            have hfc : fieldsChars (k, v) [] ++ rest =
                '\x22' :: (k.data ++ ('\x22' :: ':' :: (jsonChars v ++ ('\x7d' :: rest)))) := by
              simp [fieldsChars]
            obtain ⟨htake, hdrop⟩ :=
              takeWhile_dropWhile_append k.data
                ('\x22' :: ':' :: (jsonChars v ++ ('\x7d' :: rest)))
                (fun c hc => by simp at hc; subst hc; decide) (strOkB_mem hk)
            rw [hfc]
            simp only [parseFields]
            simp [htake, hdrop,
              ihJ v ('\x7d' :: rest) hv hfl' (numSafe_cons rest (by decide) (by decide))]
        | cons f2 fs' =>
            obtain ⟨k2, v2⟩ := f2
            have hfs' : strOkB k2 = true ∧ jwf v2 = true ∧ fwf fs' = true := by
              simpa [fwf, and_assoc] using hfs
            have hfl1 : jfuel v ≤ f := by
              simp only [ffuel] at hfl
              omega
            have hfl2 : ffuel (k2, v2) fs' ≤ f := by
              simp only [ffuel] at hfl
              omega
            have hfc : fieldsChars (k, v) ((k2, v2) :: fs') ++ rest =
                '\x22' :: (k.data ++ ('\x22' :: ':' ::
                  (jsonChars v ++ (',' :: (fieldsChars (k2, v2) fs' ++ rest))))) := by
              simp [fieldsChars]
            obtain ⟨htake, hdrop⟩ :=
              takeWhile_dropWhile_append k.data
                ('\x22' :: ':' :: (jsonChars v ++ (',' :: (fieldsChars (k2, v2) fs' ++ rest))))
                (fun c hc => by simp at hc; subst hc; decide) (strOkB_mem hk)
            rw [hfc]
            simp only [parseFields]
            simp [htake, hdrop,
              ihJ v (',' :: (fieldsChars (k2, v2) fs' ++ rest)) hv hfl1
                (numSafe_cons _ (by decide) (by decide)),
              ihF k2 v2 fs' rest hfs'.1 hfs'.2.1 hfs'.2.2 hfl2 hns]

/-! ## Round-trip: the canonical fuel suffices -/

mutual

/-- The fuel a value needs is at most twice its serialized length. -/
theorem jfuel_le_chars (j : Json) : jfuel j ≤ 2 * (jsonChars j).length := by
  cases j with
  | null =>
      rw [jfuel, jsonChars_null_eq]
      decide
  | bool b =>
      cases b
      · rw [jfuel, jsonChars_false_eq]
        decide
      · rw [jfuel, jsonChars_true_eq]
        decide
  | num m fd =>
      obtain ⟨c, t, hct, -⟩ := numChars_head m fd
      have hjc : jsonChars (.num m fd) = numChars m fd := by simp [jsonChars]
      rw [jfuel, hjc, hct]
      simp
      omega
  | str s =>
      have hjc : jsonChars (.str s) = '\x22' :: (s.data ++ ['\x22']) := by simp [jsonChars]
      rw [jfuel, hjc]
      simp
      omega
  | arr es =>
      cases es with
      | nil => simp [jfuel, jsonChars]
      | cons e es' =>
          have h1 := efuel_le_chars e es'
          have hjc : jsonChars (.arr (e :: es')) = '[' :: elemsChars e es' := by
            simp [jsonChars]
          rw [jfuel, hjc]
          simp
          omega
  | obj fs =>
      cases fs with
      | nil => simp [jfuel, jsonChars]
      | cons fd fs' =>
          have h1 := ffuel_le_chars fd fs'
          have hjc : jsonChars (.obj (fd :: fs')) = '\x7b' :: fieldsChars fd fs' := by
            simp [jsonChars]
          rw [jfuel, hjc]
          simp
          omega
termination_by sizeOf j
decreasing_by all_goals simp_wf

/-- The fuel an element list needs is at most twice its serialized length. -/
theorem efuel_le_chars (e : Json) (es : List Json) :
    efuel e es ≤ 2 * (elemsChars e es).length := by
  cases es with
  | nil =>
      have h1 := jfuel_le_chars e
      have hec : elemsChars e [] = jsonChars e ++ [']'] := by simp [elemsChars]
      rw [efuel, hec]
      simp
      omega
  | cons e2 es' =>
      have h1 := jfuel_le_chars e
      have h2 := efuel_le_chars e2 es'
      have hec : elemsChars e (e2 :: es') = jsonChars e ++ ',' :: elemsChars e2 es' := by
        simp [elemsChars]
      rw [efuel, hec]
      simp
      omega
termination_by 1 + sizeOf e + sizeOf es
decreasing_by all_goals (simp_wf <;> omega)

/-- The fuel a field list needs is at most twice its serialized length. -/
theorem ffuel_le_chars (fd : String × Json) (fs : List (String × Json)) :
    ffuel fd fs ≤ 2 * (fieldsChars fd fs).length := by
  obtain ⟨k, v⟩ := fd
  cases fs with
  | nil =>
      have h1 := jfuel_le_chars v
      have hfc : fieldsChars (k, v) [] =
          '\x22' :: k.data ++ '\x22' :: ':' :: jsonChars v ++ ['\x7d'] := by
        simp [fieldsChars]
      rw [ffuel, hfc]
      simp
      omega
  | cons f2 fs' =>
      have h1 := jfuel_le_chars v
      have h2 := ffuel_le_chars f2 fs'
      have hfc : fieldsChars (k, v) (f2 :: fs') =
          '\x22' :: k.data ++ '\x22' :: ':' :: jsonChars v ++ ',' :: fieldsChars f2 fs' := by
        simp [fieldsChars]
      rw [ffuel, hfc]
      simp
      omega
termination_by 1 + sizeOf fd + sizeOf fs
decreasing_by all_goals (simp_wf <;> omega)

end

/-- Serialize-then-parse is the identity on well-formed values. -/
theorem jsonParse_stringify (j : Json) (h : jwf j = true) :
    jsonParse (jsonStringify j) = some j := by
  have hfl : jfuel j ≤ 2 * (jsonChars j).length + 1 :=
    le_trans (jfuel_le_chars j) (by omega)
  have h2 : parseJson (2 * (jsonChars j).length + 1) (jsonChars j) = some (j, []) := by
    have := (parse_sound (2 * (jsonChars j).length + 1)).1 j [] h hfl numSafe_nil
    simpa using this
  show (match parseJson (2 * (jsonChars j).length + 1) (jsonChars j) with
    | some (j, []) => some j
    | _ => none) = some j
  rw [h2]

/-! ## C3: well-formed snapshots are serializable -/

/-- ISO-8601 characters need no escaping. -/
lemma strChar_of_isoChar (c : Char) (h : isoChar c = true) : strChar c = true := by
  simp only [isoChar, Bool.or_eq_true] at h
  rcases h with ((((h | h) | h) | h) | h) | h
  · obtain ⟨h1, h2⟩ := isDigitChar_toNat h
    simp only [strChar, Bool.and_eq_true, decide_eq_true_eq]
    constructor <;> (intro hc; subst hc; revert h1 h2; decide)
  all_goals (simp only [decide_eq_true_eq] at h; subst h; decide)

/-- ISO-8601 strings are serializable verbatim. -/
lemma strOkB_of_isoStr {s : String} (h : isoStr s = true) : strOkB s = true := by
  simp only [isoStr, List.all_eq_true] at h
  simp only [strOkB, List.all_eq_true]
  exact fun c hc => strChar_of_isoChar c (h c hc)

/-- JSON numbers are well formed. -/
lemma jwf_of_isNum {x : Json} (h : isNumJson x = true) : jwf x = true := by
  cases x <;> simp_all [isNumJson, jwf]

/-- Serialized history entries are well formed. -/
lemma jwf_of_isDayViews {x : Json} (h : isDayViewsJson x = true) : jwf x = true := by
  unfold isDayViewsJson at h
  split at h
  · rename_i d v
    simp only [Bool.and_eq_true] at h
    simp [jwf, fwf, lwf, strOkB_of_isoStr h.1, jwf_of_isNum h.2]
    constructor <;> decide
  · exact absurd h (by simp)

/-- Lists of well-formed history entries are well formed. -/
lemma lwf_of_all_dayViews (l : List Json) (h : l.all isDayViewsJson = true) :
    lwf l = true := by
  induction l with
  | nil => simp [lwf]
  | cons e es ih =>
      simp only [List.all_cons, Bool.and_eq_true] at h
      simp [lwf, jwf_of_isDayViews h.1, ih h.2]

/-- Serialized histories are well formed. -/
lemma jwf_of_isHistory {x : Json} (h : isHistoryJson x = true) : jwf x = true := by
  unfold isHistoryJson at h
  split at h
  · rename_i l
    simp only [Bool.and_eq_true] at h
    simp [jwf, lwf_of_all_dayViews l h.2]
  · exact absurd h (by simp)

/-- ISO-8601 JSON strings are well formed. -/
lemma jwf_of_isStrIso {x : Json} (h : isStrIso x = true) : jwf x = true := by
  cases x <;> simp_all [isStrIso, jwf]
  exact strOkB_of_isoStr h

/-- Well-formed serialized snapshots are serializable. -/
lemma jwf_of_snapshot {d : Json} (h : IsSnapshotJson d = true) : jwf d = true := by
  unfold IsSnapshotJson at h
  split at h
  · rename_i pv uv br tp lu hh
    simp only [Bool.and_eq_true] at h
    obtain ⟨⟨⟨⟨⟨h1, h2⟩, h3⟩, h4⟩, h5⟩, h6⟩ := h
    simp [jwf, fwf, jwf_of_isNum h1, jwf_of_isNum h2, jwf_of_isNum h3,
      jwf_of_isNum h4, jwf_of_isStrIso h5, jwf_of_isHistory h6]
    refine ⟨?_, ?_, ?_, ?_, ?_, ?_⟩ <;> decide
  · exact absurd h (by simp)

/-- The persisted wrapper around `null` or a well-formed snapshot is
serializable. -/
lemma jwf_mkWrapper (d : Json) (h : d = Json.null ∨ IsSnapshotJson d = true) :
    jwf (mkWrapper d) = true := by
  have hd : jwf d = true := by
    rcases h with rfl | h
    · simp [jwf]
    · exact jwf_of_snapshot h
  simp [mkWrapper, jwf, fwf, hd]
  decide

/-- C3: encoding the wrapper `{analyticsData: s}` of a well-formed
snapshot (or `null`) and decoding it back with `parseValue` returns the
wrapper unchanged — the persistence round-trip is lossless. -/
theorem encode_decode_round_trip (d : Json)
    (h : d = Json.null ∨ IsSnapshotJson d = true) :
    parseValue (some (Encode (mkWrapper d))) = .value (mkWrapper d) := by
  have hwf : jwf (mkWrapper d) = true := jwf_mkWrapper d h
  have hparse : jsonParse (Encode (mkWrapper d)) = some (mkWrapper d) :=
    jsonParse_stringify _ hwf
  have hkey : jsonHasKey (mkWrapper d) = true := by simp [jsonHasKey, mkWrapper]
  simp [parseValue, parseValueTry, hparse, isValidValue_of_jsonHasKey _ hkey]

/-- Witness for C3 at the present-but-null wrapper. -/
theorem encode_decode_round_trip_witness :
    (Json.null = Json.null ∨ IsSnapshotJson Json.null = true) ∧
      parseValue (some (Encode (mkWrapper Json.null))) = .value (mkWrapper Json.null) :=
  ⟨Or.inl rfl, encode_decode_round_trip Json.null (Or.inl rfl)⟩
